import Mathlib

/-!
Verification of the streaming object-container-file codec in
`src/lib/containers.js` (RawEncoder, RawDecoder, BlockEncoder, BlockDecoder).

Bytes are modelled as `Nat` (each < 256 in well-formed data), byte buffers as
`List Nat`.  The per-type value codec (`types.js`), the `Tap` cursor and the
`OrderedQueue` (`utils.js`) are not part of `src/`; where they are needed they
are modelled from the spec and marked as such.  The value codec is kept
abstract: an encoder `enc : α → List Nat` and a decoder
`dec : List Nat → Option (α × Nat)` returning the value and the number of
bytes consumed (`none` models a read that left the tap invalid).
-/

namespace Avsc

/-! ## Wire primitives (modelled from the spec) -/

/-- Modelled from the spec: base-128 varint decoding (`types.js` long reader,
not under `src/`).  Returns the decoded natural and the remaining bytes;
`none` models a read that ran past the end of the buffer (invalid tap). -/
def varintDecode : List Nat → Option (Nat × List Nat)
  | [] => none
  | b :: rest =>
    if b < 128 then some (b, rest)
    else (varintDecode rest).map (fun vr => (b % 128 + 128 * vr.1, vr.2))

/-- Modelled from the spec: base-128 varint encoding (`types.js` long writer,
not under `src/`), written with a structural fuel argument so that it
evaluates by kernel reduction; the fuel `n` always suffices since the
argument shrinks by a factor of 128 per step. -/
def varintEncodeAux : Nat → Nat → List Nat
  | 0, n => [n % 128]
  | f + 1, n =>
    if n < 128 then [n] else (n % 128 + 128) :: varintEncodeAux f (n / 128)

/-- Modelled from the spec: base-128 varint encoding. -/
def varintEncode (n : Nat) : List Nat :=
  varintEncodeAux n n

/-- Modelled from the spec: zig-zag mapping from the unsigned varint value to
the signed long it denotes. -/
def zigzagToInt (n : Nat) : Int :=
  if n % 2 = 0 then (n / 2 : Nat) else -((n / 2 : Nat) : Int) - 1

/-- Modelled from the spec: zig-zag mapping from a signed long to the unsigned
varint value that encodes it. -/
def intToZigzag (i : Int) : Nat :=
  if 0 ≤ i then 2 * i.toNat else 2 * (-i).toNat - 1

/-- Modelled from the spec: zig-zag varint encoding of a long
(`LONG_TYPE.toBuffer` in the source relies on `types.js`). -/
def longEncode (i : Int) : List Nat :=
  varintEncode (intToZigzag i)

/-- Modelled from the spec: zig-zag varint decoding of a long. -/
def longDecode (b : List Nat) : Option (Int × List Nat) :=
  (varintDecode b).map (fun vr => (zigzagToInt vr.1, vr.2))

/-- Modelled from the spec: read `n` raw bytes (`fixed` reader of `types.js`);
`none` models an invalid tap (not enough bytes). -/
def readFixed (n : Nat) (b : List Nat) : Option (List Nat × List Nat) :=
  if n ≤ b.length then some (b.take n, b.drop n) else none

/-- Modelled from the spec: read a non-negative long used as a length. -/
def readLen (b : List Nat) : Option (Nat × List Nat) :=
  match longDecode b with
  | none => none
  | some (i, rest) => if 0 ≤ i then some (i.toNat, rest) else none

/-- Modelled from the spec: length-prefixed bytes (`bytes` / `string` reader
of `types.js`). -/
def readBytesV (b : List Nat) : Option (List Nat × List Nat) :=
  match readLen b with
  | none => none
  | some (n, rest) => readFixed n rest

/-- Modelled from the spec: read `n` key/value entries of a `map<string,bytes>`
block. -/
def readMapEntries : Nat → List Nat → Option (List (List Nat × List Nat) × List Nat)
  | 0, b => some ([], b)
  | n + 1, b =>
    match readBytesV b with
    | none => none
    | some (k, b1) =>
      match readBytesV b1 with
      | none => none
      | some (v, b2) =>
        (readMapEntries n b2).map (fun er => ((k, v) :: er.1, er.2))

/-- Modelled from the spec: read the blocks of an Avro `map<string,bytes>`
(a sequence of counted blocks terminated by a zero count; a negative count is
followed by a byte size).  `fuel` bounds the number of blocks; each block
consumes at least one byte so `b.length + 1` always suffices. -/
def readMapBlocks : Nat → List Nat → Option (List (List Nat × List Nat) × List Nat)
  | 0, _ => none
  | fuel + 1, b =>
    match longDecode b with
    | none => none
    | some (cnt, b1) =>
      if cnt = 0 then some ([], b1)
      else if cnt < 0 then
        match longDecode b1 with
        | none => none
        | some (_, b2) =>
          match readMapEntries (-cnt).toNat b2 with
          | none => none
          | some (es, b3) =>
            (readMapBlocks fuel b3).map (fun mr => (es ++ mr.1, mr.2))
      else
        match readMapEntries cnt.toNat b1 with
        | none => none
        | some (es, b2) =>
          (readMapBlocks fuel b2).map (fun mr => (es ++ mr.1, mr.2))

/-- Modelled from the spec: a `map<string,bytes>` value. -/
def readMap (b : List Nat) : Option (List (List Nat × List Nat) × List Nat) :=
  readMapBlocks (b.length + 1) b

/-- The wire header record, `HEADER_TYPE` in the source:
`{magic: fixed(4), meta: map<string,bytes>, sync: fixed(16)}`. -/
structure Header where
  magic : List Nat
  meta : List (List Nat × List Nat)
  sync : List Nat
  deriving Repr, DecidableEq

/-- Modelled from the spec: `HEADER_TYPE._read` (driven by `types.js`, not
under `src/`): magic, meta map, sync marker, in that order. -/
def headerRead (b : List Nat) : Option (Header × List Nat) :=
  match readFixed 4 b with
  | none => none
  | some (m, b1) =>
    match readMap b1 with
    | none => none
    | some (meta, b2) =>
      (readFixed 16 b2).map (fun sr => (⟨m, meta, sr.1⟩, sr.2))

/-- The wire block record, `BLOCK_TYPE` in the source:
`{count: long, data: bytes, sync: fixed(16)}`. -/
structure WireBlock where
  count : Int
  data : List Nat
  sync : List Nat
  deriving Repr, DecidableEq

/-- Modelled from the spec: `BLOCK_TYPE._read`. -/
def blockRead (b : List Nat) : Option (WireBlock × List Nat) :=
  match longDecode b with
  | none => none
  | some (c, b1) =>
    match readBytesV b1 with
    | none => none
    | some (d, b2) =>
      (readFixed 16 b2).map (fun sr => (⟨c, d, sr.1⟩, sr.2))

/-- `MAGIC_BYTES` of the source: the 4-byte literal `Obj\x01`. -/
def MAGIC_BYTES : List Nat := [0x4F, 0x62, 0x6A, 0x01]

/-- ASCII bytes of the meta key "avro.codec". -/
def avroCodecKey : List Nat := [97, 118, 114, 111, 46, 99, 111, 100, 101, 99]

/-- ASCII bytes of the meta key "avro.schema". -/
def avroSchemaKey : List Nat := [97, 118, 114, 111, 46, 115, 99, 104, 101, 109, 97]

/-- ASCII bytes of the codec name "null". -/
def nullCodecName : List Nat := [110, 117, 108, 108]

/-- ASCII bytes of the codec name "deflate". -/
def deflateCodecName : List Nat := [100, 101, 102, 108, 97, 116, 101]

/-- The names registered by `BlockDecoder.getDefaultCodecs` (and likewise by
`BlockEncoder.getDefaultCodecs`): "null" and "deflate". -/
def defaultCodecNames : List (List Nat) := [nullCodecName, deflateCodecName]

/-- Look a key up in a decoded meta map.  A JS object built by the map reader
keeps the last assignment for a repeated key, so the lookup scans for the
last matching entry. -/
def lookupMeta (meta : List (List Nat × List Nat)) (key : List Nat) :
    Option (List Nat) :=
  meta.foldl (fun acc kv => if kv.1 = key then some kv.2 else acc) none

/-! ## OrderedQueue (modelled from the spec, `utils.js` is not under `src/`)

Indices are `Option Nat`: `none` models the JS `NaN` that arises when the
caller increments an uninitialized counter (`undefined++` evaluates to `NaN`,
and `NaN` compares false against every number, so such an item can never
equal the expected index). -/

/-- Modelled from the spec: comparison on queue indices.  `NaN` (here `none`)
compares false against everything, as in JS. -/
def idxLtB : Option Nat → Option Nat → Bool
  | some a, some b => decide (a < b)
  | _, _ => false

/-- Modelled from the spec: ordered insertion used by the min-heap `push`.
An item whose index compares false against everything (the `NaN` case) is
appended at the end, which is where the JS heap leaves it since no sift
comparison succeeds. -/
def insertItem {β : Type} (it : Option Nat × β) :
    List (Option Nat × β) → List (Option Nat × β)
  | [] => [it]
  | x :: xs => if idxLtB it.1 x.1 then it :: x :: xs else x :: insertItem it xs

/-- Modelled from the spec: `utils.OrderedQueue`, a min-heap keyed by `index`
with an internal counter of the next expected index. -/
structure OrderedQueue (β : Type) where
  items : List (Option Nat × β)
  next : Nat
  deriving Repr, DecidableEq

/-- Modelled from the spec: `OrderedQueue.push` inserts keeping the heap
order. -/
def OrderedQueue.push {β : Type} (q : OrderedQueue β) (i : Option Nat) (b : β) :
    OrderedQueue β :=
  ⟨insertItem (i, b) q.items, q.next⟩

/-- Modelled from the spec: `OrderedQueue.pop` returns the head item when its
index equals the next expected index (incrementing the counter), otherwise
nothing. -/
def OrderedQueue.pop {β : Type} (q : OrderedQueue β) :
    Option (β × OrderedQueue β) :=
  match q.items with
  | [] => none
  | (i, b) :: rest =>
    if i = some q.next then some (b, ⟨rest, q.next + 1⟩) else none

/-! ## RawEncoder (`RawEncoder.prototype._transform` / `_flush`)

The scratch `Tap` is modelled by its capacity (`buf.length`) and the virtual
content written so far (`content`, whose length is `tap.pos`; the real buffer
holds its first `cap` bytes, and the encoder only ever emits bytes from the
valid region, so the virtual content is faithful for everything emitted).
`tap.isValid()` is `content.length ≤ cap` (spec: a write past the end only
marks the tap invalid). -/

structure RawTap where
  cap : Nat
  content : List Nat
  deriving Repr, DecidableEq

/-- `RawEncoder.prototype._transform`: write the value; on overflow emit a
copy of the valid data (`copyBuffer(tap.buf, 0, pos)`) when `pos > 0`,
reallocate the buffer to `2 * len` only when the failed write's length `len`
exceeds the buffer's length, reset the position and rewrite the value.
Returns the chunks pushed downstream and the new tap. -/
def rawTransform {α : Type} (enc : α → List Nat) (t : RawTap) (val : α) :
    List (List Nat) × RawTap :=
  let pos := t.content.length
  let c1 := t.content ++ enc val
  if c1.length ≤ t.cap then ([], ⟨t.cap, c1⟩)
  else
    let out := if 0 < pos then [t.content] else []
    let len := c1.length - pos
    let cap1 := if t.cap < len then 2 * len else t.cap
    (out, ⟨cap1, enc val⟩)

/-- `RawEncoder.prototype._flush`: emit `tap.buf.slice(0, pos)` when
`pos > 0`. -/
def rawFlush (t : RawTap) : List (List Nat) :=
  if 0 < t.content.length then [t.content] else []

/-- The tap state after a `RawEncoder` has transformed `vals`, starting from
a fresh tap of capacity `cap` (`batchSize`). -/
def rawEncState {α : Type} (enc : α → List Nat) (cap : Nat) (vals : List α) :
    RawTap :=
  vals.foldl (fun t v => (rawTransform enc t v).2) ⟨cap, []⟩

/-- One `_transform` call, accumulating the pushed chunks. -/
def rawEncStep {α : Type} (enc : α → List Nat)
    (acc : List (List Nat) × RawTap) (v : α) : List (List Nat) × RawTap :=
  let r := rawTransform enc acc.2 v
  (acc.1 ++ r.1, r.2)

/-- All chunks a `RawEncoder` pushes for `vals` (transforms followed by the
final flush). -/
def rawEncOut {α : Type} (enc : α → List Nat) (cap : Nat) (vals : List α) :
    List (List Nat) :=
  (vals.foldl (rawEncStep enc) ([], ⟨cap, []⟩)).1
  ++ rawFlush (rawEncState enc cap vals)

theorem rawTransform_content {α : Type} (enc : α → List Nat) (t : RawTap)
    (v : α) :
    (rawTransform enc t v).1.flatten ++ (rawTransform enc t v).2.content
      = t.content ++ enc v := by
  obtain ⟨cap, content⟩ := t
  cases content with
  | nil => dsimp only [rawTransform]; split_ifs <;> simp
  | cons a l => dsimp only [rawTransform]; split_ifs <;> simp_all

theorem rawEncStep_snd {α : Type} (enc : α → List Nat) :
    ∀ (vals : List α) (acc : List (List Nat)) (t : RawTap),
      (vals.foldl (rawEncStep enc) (acc, t)).2
        = vals.foldl (fun t v => (rawTransform enc t v).2) t := by
  intro vals
  induction vals with
  | nil => intro acc t; rfl
  | cons v vs ih => intro acc t; simpa [rawEncStep] using ih _ _

theorem rawEnc_fold_flatten {α : Type} (enc : α → List Nat) :
    ∀ (vals : List α) (acc : List (List Nat)) (t : RawTap),
      (vals.foldl (rawEncStep enc) (acc, t)).1.flatten
          ++ (vals.foldl (rawEncStep enc) (acc, t)).2.content
        = acc.flatten ++ t.content ++ (vals.map enc).flatten := by
  intro vals
  induction vals with
  | nil => intro acc t; simp
  | cons v vs ih =>
    intro acc t
    have e : rawEncStep enc (acc, t) v
        = (acc ++ (rawTransform enc t v).1, (rawTransform enc t v).2) := rfl
    have h1 := ih (acc ++ (rawTransform enc t v).1) (rawTransform enc t v).2
    have h2 := rawTransform_content enc t v
    simp only [List.foldl_cons, e, h1, List.flatten_append, List.map_cons,
      List.flatten_cons]
    rw [List.append_assoc (acc.flatten), h2]
    simp [List.append_assoc]

theorem rawEncOut_flatten {α : Type} (enc : α → List Nat) (cap : Nat)
    (vals : List α) :
    (rawEncOut enc cap vals).flatten = (vals.map enc).flatten := by
  unfold rawEncOut rawFlush
  have hst : (vals.foldl (rawEncStep enc) ([], ⟨cap, []⟩)).2
      = rawEncState enc cap vals := by
    rw [rawEncStep_snd]; rfl
  have h := rawEnc_fold_flatten enc vals [] ⟨cap, []⟩
  rw [hst] at h
  by_cases hp : 0 < (rawEncState enc cap vals).content.length
  · simp only [hp, if_pos, List.flatten_append]
    simpa using h
  · have hnil : (rawEncState enc cap vals).content = [] := by
      cases hc : (rawEncState enc cap vals).content with
      | nil => rfl
      | cons a l => rw [hc] at hp; simp at hp
    rw [hnil] at h
    simp only [hnil, List.length_nil, lt_irrefl, if_neg (lt_irrefl 0)]
    simpa using h

theorem rawEncState_append {α : Type} (enc : α → List Nat) (cap : Nat)
    (pre : List α) (v : α) :
    rawEncState enc cap (pre ++ [v])
      = (rawTransform enc (rawEncState enc cap pre) v).2 := by
  unfold rawEncState
  rw [List.foldl_append]
  rfl

theorem rawTransform_cap_ge {α : Type} (enc : α → List Nat) (t : RawTap)
    (v : α) : (enc v).length ≤ ((rawTransform enc t v).2).cap := by
  obtain ⟨cap, content⟩ := t
  dsimp only [rawTransform]
  split_ifs with h h1 <;> simp_all <;> omega

theorem rawTransform_cap_overflow {α : Type} (enc : α → List Nat) (t : RawTap)
    (v : α) (h : t.cap < (enc v).length) :
    ((rawTransform enc t v).2).cap = 2 * (enc v).length := by
  obtain ⟨cap, content⟩ := t
  dsimp only [rawTransform]
  have hlen : (content ++ enc v).length - content.length = (enc v).length := by
    simp
  split_ifs with h1 h2 <;> simp_all <;> omega

/-! ## C4 -/

/-- C4, counterexample.  With initial batch size 10, a record of encoded
length 50 grows the buffer to 100; the following record of encoded length 60
(larger than the batch size 10) overflows but does not trigger a resize
(60 ≤ 100), so afterwards the capacity is 100 < 2·60: the claim's
"after such a record the tap's capacity is at least twice the record's
encoded length" is false. -/
theorem rawEncoder_capacity_counterexample :
    10 < 50 ∧ 10 < 60 ∧
    (rawEncState (fun n => List.replicate n 0) 10 [50, 60]).cap = 100 ∧
    ¬ 2 * 60 ≤ (rawEncState (fun n => List.replicate n 0) 10 [50, 60]).cap := by
  exact ⟨by norm_num, by norm_num, by decide, by decide⟩

/-- C4 (amended): when a value overflows the scratch tap, `RawEncoder` first
emits the valid data `tap.buf[0..pos0]` when `pos0 > 0`, reallocates the
buffer to twice the failed write's length exactly when that length exceeds
the buffer's length, resets the position and rewrites the value, which then
succeeds; the concatenated output equals the concatenation of the record
encodings — hence it is identical for every initial batch size, including for
records larger than the batch size; after any record the capacity is at least
the record's encoded length, and it is exactly twice that length when the
record's encoding exceeded the capacity in force when it was written
(not merely when the record is larger than the initial batch size). -/
theorem rawEncoder_overflow_discipline {α : Type} (enc : α → List Nat) :
    (∀ (t : RawTap) (v : α),
        t.cap < t.content.length + (enc v).length →
        rawTransform enc t v
          = ((if 0 < t.content.length then [t.content] else []),
             ⟨if t.cap < (enc v).length then 2 * (enc v).length else t.cap,
              enc v⟩)
        ∧ (enc v).length
            ≤ (if t.cap < (enc v).length then 2 * (enc v).length else t.cap))
    ∧ (∀ (cap : Nat) (vals : List α),
        (rawEncOut enc cap vals).flatten = (vals.map enc).flatten)
    ∧ (∀ (cap : Nat) (pre : List α) (v : α),
        (enc v).length ≤ (rawEncState enc cap (pre ++ [v])).cap)
    ∧ (∀ (cap : Nat) (pre : List α) (v : α),
        (rawEncState enc cap pre).cap < (enc v).length →
        (rawEncState enc cap (pre ++ [v])).cap = 2 * (enc v).length) := by
  refine ⟨?_, fun cap vals => rawEncOut_flatten enc cap vals, ?_, ?_⟩
  · intro t v hov
    obtain ⟨cap, content⟩ := t
    constructor
    · dsimp only [rawTransform]
      simp only [List.length_append] at hov ⊢
      rw [if_neg (by omega)]
      simp
    · split_ifs <;> omega
  · intro cap pre v
    rw [rawEncState_append]
    exact rawTransform_cap_ge enc _ v
  · intro cap pre v h
    rw [rawEncState_append]
    exact rawTransform_cap_overflow enc _ v h

/-- C4, witness for `rawEncoder_overflow_discipline` at a concrete encoder
(`enc n = n` zero bytes), batch size 10 and records 12 and 3. -/
theorem rawEncoder_overflow_discipline_witness :
    (rawEncState (fun n => List.replicate n 0) 10 []).cap < 12 ∧
    (rawEncState (fun n => List.replicate n 0) 10 [12]).cap = 2 * 12 ∧
    (rawEncOut (fun n => List.replicate n 0) 10 [12, 3]).flatten
      = ([12, 3].map (fun n => List.replicate n 0)).flatten ∧
    rawTransform (fun n => List.replicate n 0) ⟨10, []⟩ 12
      = ([], ⟨24, List.replicate 12 0⟩) := by
  refine ⟨by decide, ?_, ?_, ?_⟩
  · have h := (rawEncoder_overflow_discipline
      (fun n => List.replicate n 0)).2.2.2 10 [] 12 (by decide)
    simpa using h
  · exact (rawEncoder_overflow_discipline
      (fun n => List.replicate n 0)).2.1 10 [12, 3]
  · have h := ((rawEncoder_overflow_discipline
      (fun n => List.replicate n 0)).1 ⟨10, []⟩ 12 (by decide)).1
    simpa using h

/-! ## RawDecoder (`RawDecoder.prototype._write` / `_read`)

The decoder's `Tap` is a buffer plus a cursor; the abstract value codec is a
decoder `dec : List Nat → Option (α × Nat)` applied to the unconsumed bytes,
returning the value and the number of bytes consumed; `none` models a read
that left the tap invalid (`tap.isValid()` false). -/

structure RawDecoderState (α : Type) where
  buf : List Nat
  pos : Nat
  /-- whether a write-completion callback is stored (`_writeCb !== null`). -/
  hasWriteCb : Bool
  needPush : Bool
  finished : Bool
  /-- values pushed downstream. -/
  out : List α
  /-- end-of-stream pushed (`push(null)`). -/
  ended : Bool
  /-- number of times the read path invoked the stored write callback. -/
  cbCalls : Nat
  deriving Repr, DecidableEq

/-- `RawDecoder.prototype._read`: clear `needPush`, save the position, read a
value; on a valid read push it; otherwise, if not finished, restore the
position, set `needPush` and invoke the stored write callback if there is one
(there is none only before the first write); if finished, push
end-of-stream.  The read path never emits an error. -/
def rawRead {α : Type} (dec : List Nat → Option (α × Nat))
    (st : RawDecoderState α) : RawDecoderState α :=
  let st := { st with needPush := false }
  match dec (st.buf.drop st.pos) with
  | some (v, k) => { st with pos := st.pos + k, out := st.out ++ [v] }
  | none =>
    if ¬ st.finished then
      { st with needPush := true,
                cbCalls := st.cbCalls + (if st.hasWriteCb then 1 else 0) }
    else
      { st with ended := true }

/-- `RawDecoder.prototype._write`: store the write callback without invoking
it, concatenate the chunk onto the unconsumed bytes, reset the position, and
re-enter the read path if a read was stalled (`needPush`). -/
def rawWrite {α : Type} (dec : List Nat → Option (α × Nat))
    (st : RawDecoderState α) (chunk : List Nat) : RawDecoderState α :=
  let st1 := { st with hasWriteCb := true,
                       buf := st.buf.drop st.pos ++ chunk, pos := 0 }
  if st.needPush then rawRead dec { st1 with needPush := false } else st1

/-! ## C9 -/

/-- C9: if the stream has finished and the remaining buffered bytes form only
a partial record (the speculative read leaves the tap invalid), `_read`
pushes end-of-stream; it emits nothing else: no value, no error, no callback,
and the residual bytes are silently discarded (the state is unchanged apart
from the end-of-stream flag). -/
theorem rawDecoder_truncation_silent {α : Type}
    (dec : List Nat → Option (α × Nat)) (st : RawDecoderState α)
    (hfin : st.finished = true)
    (hdec : dec (st.buf.drop st.pos) = none) :
    rawRead dec st = { st with needPush := false, ended := true } := by
  unfold rawRead
  dsimp only
  rw [hdec]
  simp [hfin]

/-- C9, witness: a decoder needing two bytes per record, fed the single byte
5 and then finished, pushes end-of-stream with no records; and a decoder fed
zero bytes and finished pushes end-of-stream with zero records. -/
theorem rawDecoder_truncation_silent_witness :
    rawRead (fun b => match b with
        | x :: y :: _ => some ((x, y), 2)
        | _ => none)
      ⟨[5], 0, true, false, true, [], false, 0⟩
      = ⟨[5], 0, true, false, true, [], true, 0⟩ ∧
    rawRead (fun b => match b with
        | x :: y :: _ => some ((x, y), 2)
        | _ => none)
      ⟨[], 0, false, false, true, [], false, 0⟩
      = ⟨[], 0, false, false, true, [], true, 0⟩ := by
  constructor
  · exact rawDecoder_truncation_silent _ _ rfl rfl
  · exact rawDecoder_truncation_silent _ _ rfl rfl

/-! ## C10 -/

/-- C10: a read arriving before any write (no stored write callback) does not
fail: the decoder restores the tap position, records the stalled read in
`needPush`, invokes no callback and pushes neither a value nor
end-of-stream; and a stalled read is resumed by the next write chunk, which
stores its callback, appends the bytes and re-enters the read path. -/
theorem rawDecoder_read_before_write_safe {α : Type}
    (dec : List Nat → Option (α × Nat)) (st : RawDecoderState α)
    (hcb : st.hasWriteCb = false) (hfin : st.finished = false)
    (hdec : dec (st.buf.drop st.pos) = none) :
    rawRead dec st = { st with needPush := true }
    ∧ ∀ (st' : RawDecoderState α) (chunk : List Nat), st'.needPush = true →
        rawWrite dec st' chunk
          = rawRead dec { st' with hasWriteCb := true,
                                   buf := st'.buf.drop st'.pos ++ chunk,
                                   pos := 0, needPush := false } := by
  constructor
  · unfold rawRead
    dsimp only
    rw [hdec]
    simp [hfin, hcb]
  · intro st' chunk hnp
    unfold rawWrite
    simp [hnp]

/-- C10, witness for `rawDecoder_read_before_write_safe`: a fresh decoder
(empty buffer, no stored callback) read before the first write. -/
theorem rawDecoder_read_before_write_safe_witness :
    rawRead (fun b => match b with
        | x :: y :: _ => some ((x, y), 2)
        | _ => none)
      ⟨[], 0, false, false, false, [], false, 0⟩
      = ⟨[], 0, false, true, false, [], false, 0⟩ ∧
    rawWrite (fun b => match b with
        | x :: y :: _ => some ((x, y), 2)
        | _ => none)
      ⟨[], 0, false, true, false, [], false, 0⟩ [8, 9]
      = ⟨[8, 9], 2, true, false, false, [(8, 9)], false, 0⟩ := by
  have h := rawDecoder_read_before_write_safe
    (fun b => match b with
        | x :: y :: _ => some ((x, y), 2)
        | _ => none)
    (⟨[], 0, false, false, false, [], false, 0⟩ : RawDecoderState (Nat × Nat))
    rfl rfl rfl
  constructor
  · exact h.1
  · rw [h.2 ⟨[], 0, false, true, false, [], false, 0⟩ [8, 9] rfl]
    decide

/-! ## BlockDecoder, header phase
(`BlockDecoder.prototype._write` / `_decodeHeader`) -/

/-- The errors the container streams can emit. -/
inductive ContainerError where
  /-- "invalid magic bytes" -/
  | invalidMagic : ContainerError
  /-- "unknown codec: \x7bname\x7d" -/
  | unknownCodec (name : List Nat) : ContainerError
  /-- an error thrown while parsing the schema from the header meta -/
  | schemaError : ContainerError
  /-- "invalid sync marker" -/
  | invalidSync : ContainerError
  deriving Repr, DecidableEq

/-- Outcome of one `_decodeHeader` attempt. -/
inductive HeaderStep where
  /-- the header read left the tap invalid: wait for more bytes -/
  | underflow : HeaderStep
  /-- an error was emitted; the decoder stays in the header phase -/
  | errored (e : ContainerError) : HeaderStep
  /-- header accepted: transition to the block phase -/
  | ok (hdr : Header) : HeaderStep
  deriving Repr, DecidableEq

/-- The codec name `_decodeHeader` resolves:
`(header.meta['avro.codec'] || 'null').toString()`.  Only a missing key falls
back to "null" (an empty Buffer is truthy in JS). -/
def resolvedCodec (hdr : Header) : List Nat :=
  (lookupMeta hdr.meta avroCodecKey).getD nullCodecName

/-- `BlockDecoder.prototype._decodeHeader`, as one attempt on the buffered
bytes: read the header (underflow if the tap is invalid), check the magic,
resolve the codec against the registry, then parse the schema (`parseOk`
stands for `JSON.parse` + `types.createType`, external to `src/`). -/
def decodeHeaderStep (codecs : List (List Nat))
    (parseOk : Option (List Nat) → Bool) (b : List Nat) : HeaderStep :=
  match headerRead b with
  | none => .underflow
  | some (hdr, _) =>
    if hdr.magic ≠ MAGIC_BYTES then .errored .invalidMagic
    else
      let codec := resolvedCodec hdr
      if ¬ codecs.contains codec then .errored (.unknownCodec codec)
      else if ¬ parseOk (lookupMeta hdr.meta avroSchemaKey) then
        .errored .schemaError
      else .ok hdr

/-- State of a `BlockDecoder` that is still in the header phase. -/
structure BDHeaderState where
  buf : List Nat
  errors : List ContainerError
  /-- whether `_write` has been replaced by `_writeChunk` (block phase). -/
  headerDone : Bool
  /-- records pushed downstream.  While the decoder is in the header phase
  nothing is ever pushed: `_read` finds an empty block tap and an empty
  queue, and only blocks dispatched in the block phase fill the queue. -/
  out : List (List Nat)
  deriving Repr, DecidableEq

/-- `BlockDecoder.prototype._write` (header phase): concatenate the chunk,
attempt `_decodeHeader`; on underflow invoke the write callback on the next
tick and wait; on an error emitted by `_decodeHeader` the function returns a
falsy value, so the decoder also just waits — it stays in the header phase
and will re-decode when the next chunk arrives; on success switch to
`_writeChunk`. -/
def bdHeaderWrite (codecs : List (List Nat))
    (parseOk : Option (List Nat) → Bool) (st : BDHeaderState)
    (chunk : List Nat) : BDHeaderState :=
  if st.headerDone then st
  else
    let b := st.buf ++ chunk
    match decodeHeaderStep codecs parseOk b with
    | .underflow => { st with buf := b }
    | .errored e => { st with buf := b, errors := st.errors ++ [e] }
    | .ok _ => { st with buf := b, headerDone := true }

/-- A run of `BlockDecoder` over a list of write chunks, starting fresh. -/
def bdHeaderRun (codecs : List (List Nat))
    (parseOk : Option (List Nat) → Bool) (chunks : List (List Nat)) :
    BDHeaderState :=
  chunks.foldl (bdHeaderWrite codecs parseOk) ⟨[], [], false, []⟩

/-- The cumulative buffers at which a header decode attempt succeeded
(did not underflow), for a run starting with buffered bytes `b0`. -/
def headerAttempts (b0 : List Nat) : List (List Nat) → List (List Nat)
  | [] => []
  | c :: rest =>
    (if (headerRead (b0 ++ c)).isSome then [b0 ++ c] else [])
      ++ headerAttempts (b0 ++ c) rest

theorem headerRead_magic (b : List Nat) (hdr : Header) (r : List Nat)
    (h : headerRead b = some (hdr, r)) :
    hdr.magic = b.take 4 ∧ 4 ≤ b.length := by
  unfold headerRead readFixed at h
  by_cases hl : 4 ≤ b.length
  · refine ⟨?_, hl⟩
    rw [if_pos hl] at h
    dsimp only at h
    cases hm : readMap (b.drop 4) with
    | none => rw [hm] at h; simp at h
    | some meta =>
      obtain ⟨mm, b2⟩ := meta
      rw [hm] at h
      dsimp only at h
      by_cases h16 : 16 ≤ b2.length
      · rw [if_pos h16] at h
        simp only [Option.map_some', Option.some.injEq, Prod.mk.injEq] at h
        rw [← h.1]
      · rw [if_neg h16] at h; simp at h
  · rw [if_neg hl] at h; simp at h

theorem headerRead_nil : headerRead ([] : List Nat) = none := by decide

theorem bdHeaderRun_badMagic (codecs : List (List Nat))
    (parseOk : Option (List Nat) → Bool) :
    ∀ (chunks : List (List Nat)) (b0 : List Nat) (errs : List ContainerError)
      (out : List (List Nat)),
      (b0 ++ chunks.flatten).take 4 ≠ MAGIC_BYTES →
      chunks.foldl (bdHeaderWrite codecs parseOk) ⟨b0, errs, false, out⟩
        = ⟨b0 ++ chunks.flatten,
           errs ++ (headerAttempts b0 chunks).map
             (fun _ => ContainerError.invalidMagic),
           false, out⟩ := by
  intro chunks
  induction chunks with
  | nil => intro b0 errs out hbad; simp [headerAttempts]
  | cons c rest ih =>
    intro b0 errs out hbad
    have hflat : b0 ++ (c :: rest).flatten = (b0 ++ c) ++ rest.flatten := by
      simp [List.append_assoc]
    rw [hflat] at hbad
    have hstep : bdHeaderWrite codecs parseOk ⟨b0, errs, false, out⟩ c
        = if (headerRead (b0 ++ c)).isSome then
            ⟨b0 ++ c, errs ++ [ContainerError.invalidMagic], false, out⟩
          else ⟨b0 ++ c, errs, false, out⟩ := by
      unfold bdHeaderWrite decodeHeaderStep
      cases hh : headerRead (b0 ++ c) with
      | none => simp [hh]
      | some pr =>
        obtain ⟨hdr, r⟩ := pr
        have hmg := headerRead_magic (b0 ++ c) hdr r hh
        have htake : (b0 ++ c).take 4 = ((b0 ++ c) ++ rest.flatten).take 4 :=
          (List.take_append_of_le_length hmg.2).symm
        have : hdr.magic ≠ MAGIC_BYTES := by
          rw [hmg.1, htake]; exact hbad
        simp [hh, this]
    rw [List.foldl_cons, hstep]
    by_cases hh : (headerRead (b0 ++ c)).isSome
    · rw [if_pos hh]
      rw [ih (b0 ++ c) (errs ++ [ContainerError.invalidMagic]) out hbad]
      simp [headerAttempts, hh, hflat, List.append_assoc]
    · rw [if_neg hh]
      rw [ih (b0 ++ c) errs out hbad]
      simp only [Bool.not_eq_true, Option.not_isSome,
        Option.isNone_iff_eq_none] at hh
      simp [headerAttempts, hh, hflat, List.append_assoc]

theorem headerAttempts_ne_nil :
    ∀ (chunks : List (List Nat)) (b0 : List Nat),
      headerRead b0 = none → (headerRead (b0 ++ chunks.flatten)).isSome →
      headerAttempts b0 chunks ≠ [] := by
  intro chunks
  induction chunks with
  | nil => intro b0 h0 hs; rw [List.flatten_nil, List.append_nil] at hs
           rw [h0] at hs; simp at hs
  | cons c rest ih =>
    intro b0 h0 hs
    unfold headerAttempts
    by_cases hh : (headerRead (b0 ++ c)).isSome
    · simp [hh]
    · simp only [Bool.not_eq_true, Option.not_isSome,
        Option.isNone_iff_eq_none] at hh
      have : b0 ++ (c :: rest).flatten = (b0 ++ c) ++ rest.flatten := by
        simp [List.append_assoc]
      rw [this] at hs
      have := ih (b0 ++ c) hh hs
      simpa [hh] using this

/-! ## C7 -/

/-- C7, counterexample.  A complete header with magic `Obj\x02` followed by a
later one-byte chunk: the decoder emits "invalid magic bytes" twice — once
per write after the header is decodable — because `_decodeHeader` returns a
falsy value after emitting, so the decoder stays in the header phase and
re-decodes the (still bad) header on the next chunk.  The claim's "exactly
once ... for every way the input bytes are split into write chunks" is
false. -/
theorem blockDecoder_bad_magic_twice :
    (bdHeaderRun defaultCodecNames (fun _ => true)
        [[0x4F, 0x62, 0x6A, 0x02, 0] ++ List.replicate 16 0, [0]]).errors
      = [ContainerError.invalidMagic, ContainerError.invalidMagic] := by
  decide

/-- C7 (amended): when the bytes fed to `BlockDecoder` decode to a header
whose first 4 bytes differ from `Obj\x01`, the run emits "invalid magic
bytes" once per write call at which the buffered bytes decode to a complete
header — at least once, and exactly once when no further chunk arrives after
the header first becomes decodable (in particular for a single-chunk
delivery) — and emits no records, never leaving the header phase. -/
theorem blockDecoder_bad_magic_errors (codecs : List (List Nat))
    (parseOk : Option (List Nat) → Bool) (chunks : List (List Nat))
    (hdr : Header) (r : List Nat)
    (hdec : headerRead chunks.flatten = some (hdr, r))
    (hbad : hdr.magic ≠ MAGIC_BYTES) :
    (bdHeaderRun codecs parseOk chunks).errors
        = (headerAttempts [] chunks).map (fun _ => ContainerError.invalidMagic)
    ∧ headerAttempts [] chunks ≠ []
    ∧ (bdHeaderRun codecs parseOk chunks).out = []
    ∧ (bdHeaderRun codecs parseOk chunks).headerDone = false := by
  have hbad4 : (([] : List Nat) ++ chunks.flatten).take 4 ≠ MAGIC_BYTES := by
    have hmg := headerRead_magic chunks.flatten hdr r hdec
    rw [List.nil_append, ← hmg.1]
    exact hbad
  have hrun := bdHeaderRun_badMagic codecs parseOk chunks [] [] [] hbad4
  unfold bdHeaderRun
  rw [hrun]
  refine ⟨by simp, ?_, rfl, rfl⟩
  exact headerAttempts_ne_nil chunks [] headerRead_nil (by rw [List.nil_append, hdec]; rfl)

/-- C7, witness for `blockDecoder_bad_magic_errors`: the bad-magic header
delivered in one chunk produces the error exactly once and no records. -/
theorem blockDecoder_bad_magic_errors_witness :
    (bdHeaderRun defaultCodecNames (fun _ => true)
        [[0x4F, 0x62, 0x6A, 0x03, 0] ++ List.replicate 16 0]).errors
      = [ContainerError.invalidMagic]
    ∧ (bdHeaderRun defaultCodecNames (fun _ => true)
        [[0x4F, 0x62, 0x6A, 0x03, 0] ++ List.replicate 16 0]).out = [] := by
  have h := blockDecoder_bad_magic_errors defaultCodecNames (fun _ => true)
    [[0x4F, 0x62, 0x6A, 0x03, 0] ++ List.replicate 16 0]
    ⟨[0x4F, 0x62, 0x6A, 0x03], [], List.replicate 16 0⟩ []
    (by decide) (by decide)
  refine ⟨?_, h.2.2.1⟩
  rw [h.1]
  decide

/-! ## C8 -/

/-- C8: after decoding a valid-magic header, the codec name is taken from
`meta["avro.codec"]`, defaulting to "null" exactly when the key is absent;
when the name is not in the codec registry the decoder emits
"unknown codec: name" exactly once (for a single delivery of the header) and
emits no records. -/
theorem blockDecoder_unknown_codec_error (codecs : List (List Nat))
    (parseOk : Option (List Nat) → Bool) (b : List Nat) (hdr : Header)
    (r : List Nat) (hdec : headerRead b = some (hdr, r))
    (hmagic : hdr.magic = MAGIC_BYTES)
    (hunk : codecs.contains (resolvedCodec hdr) = false) :
    (bdHeaderRun codecs parseOk [b]).errors
        = [ContainerError.unknownCodec (resolvedCodec hdr)]
    ∧ (bdHeaderRun codecs parseOk [b]).out = []
    ∧ (bdHeaderRun codecs parseOk [b]).headerDone = false
    ∧ (lookupMeta hdr.meta avroCodecKey = none →
        resolvedCodec hdr = nullCodecName) := by
  have hstep : bdHeaderRun codecs parseOk [b]
      = ⟨b, [ContainerError.unknownCodec (resolvedCodec hdr)], false, []⟩ := by
    unfold bdHeaderRun bdHeaderWrite decodeHeaderStep
    simp only [List.foldl_cons, List.foldl_nil, List.nil_append]
    rw [hdec]
    have hmem : resolvedCodec hdr ∉ codecs := by simpa using hunk
    simp [hmagic, hmem]
  rw [hstep]
  refine ⟨rfl, rfl, rfl, ?_⟩
  intro hnone
  unfold resolvedCodec
  rw [hnone]
  rfl

/-- C8, witness for `blockDecoder_unknown_codec_error`: a valid-magic header
with `avro.codec = "snappy"` against the default registry. -/
theorem blockDecoder_unknown_codec_error_witness :
    (bdHeaderRun defaultCodecNames (fun _ => true)
        [MAGIC_BYTES ++ [2, 20] ++ avroCodecKey ++ [12]
          ++ [115, 110, 97, 112, 112, 121] ++ [0] ++ List.replicate 16 0]).errors
      = [ContainerError.unknownCodec [115, 110, 97, 112, 112, 121]] := by
  have h := blockDecoder_unknown_codec_error defaultCodecNames (fun _ => true)
    (MAGIC_BYTES ++ [2, 20] ++ avroCodecKey ++ [12]
      ++ [115, 110, 97, 112, 112, 121] ++ [0] ++ List.replicate 16 0)
    ⟨MAGIC_BYTES, [(avroCodecKey, [115, 110, 97, 112, 112, 121])],
      List.replicate 16 0⟩ []
    (by decide) (by decide) (by decide)
  rw [h.1]
  decide

/-! ## BlockEncoder
(`BlockEncoder.prototype._write` / `_writeChunk` / `_flushChunk` /
`_createBlockCallback` / `_read`)

The model uses the default "null" codec, whose callback runs synchronously.
`this._index` is never initialized by the constructor; it is modelled as
`Option Nat` starting at `none` (JS `undefined`), and `undefined++` yields
`NaN`, which stays `NaN` under increment — modelled by `Option.map (· + 1)`
mapping `none` to `none`. -/

/-- Modelled from the spec: length-prefixed bytes encoding (`types.js`). -/
def bytesEncode (b : List Nat) : List Nat :=
  longEncode b.length ++ b

/-- Modelled from the spec: `map<string,bytes>` encoding — a single counted
block when nonempty, then the zero terminator (`types.js`). -/
def mapEncode (entries : List (List Nat × List Nat)) : List Nat :=
  (if entries.length ≠ 0 then
    longEncode entries.length
      ++ (entries.map (fun kv => bytesEncode kv.1 ++ bytesEncode kv.2)).flatten
   else []) ++ longEncode 0

/-- Modelled from the spec: the encoded header `BlockEncoder._write` pushes
(`header.$toBuffer()` relies on `types.js`): magic, meta
`{avro.schema, avro.codec}`, sync marker. -/
def headerBytes (schemaBytes codecName sync : List Nat) : List Nat :=
  MAGIC_BYTES
    ++ mapEncode [(avroSchemaKey, schemaBytes), (avroCodecKey, codecName)]
    ++ sync

structure BEState where
  blockSize : Nat
  /-- current tap buffer length (`tap.buf.length`). -/
  cap : Nat
  /-- virtual tap content; `tap.pos = content.length`. -/
  content : List Nat
  blockCount : Nat
  /-- `this._index`: never initialized by the constructor, so `none`
  (JS `undefined`; incrementing gives `NaN`, which stays `none`). -/
  index : Option Nat
  pending : Nat
  /-- queue of `BlockData` payloads `(buf, count)` keyed by index. -/
  queue : OrderedQueue (List Nat × Nat)
  /-- every `compress` submission: (captured index, bytes, count). -/
  submitted : List (Option Nat × List Nat × Nat)
  /-- byte segments pushed downstream. -/
  pushes : List (List Nat)
  syncMarker : List Nat
  headerDone : Bool
  finished : Bool
  needPush : Bool
  /-- end-of-stream pushed. -/
  ended : Bool
  /-- `BlockData.cb` invocations from the read path. -/
  cbCalls : Nat

/-- `BlockEncoder.prototype._read`: pop the next in-order `BlockData`; when
there is none, push end-of-stream if finished with no pending compressions,
else record the stalled read; when a block is popped, push the four segments
`varint(count)`, `varint(buf.length)`, `buf`, `syncMarker` and invoke the
block's callback unless the stream is finishing. -/
def beRead (st : BEState) : BEState :=
  match st.queue.pop with
  | none =>
    if st.finished = true ∧ st.pending = 0 then { st with ended := true }
    else { st with needPush := true }
  | some ((buf, cnt), q) =>
    let st1 := { st with
      queue := q
      pushes :=
        st.pushes ++ [longEncode cnt, longEncode buf.length, buf,
          st.syncMarker] }
    if st1.finished = false then { st1 with cbCalls := st1.cbCalls + 1 }
    else st1

/-- `BlockEncoder.prototype._flushChunk` with the synchronous "null" codec:
`_createBlockCallback` captures `this._index++` (starting from the
uninitialized `undefined`) and the current block count, increments `pending`;
the codec calls straight back, decrementing `pending`, pushing the
`BlockData` and re-entering `_read` if a read was stalled; finally the block
count is reset. -/
def beFlushChunk (st : BEState) (pos : Nat) : BEState :=
  let idx := st.index
  let cnt := st.blockCount
  let data := st.content.take pos
  let st := { st with index := st.index.map (· + 1),
                      pending := st.pending + 1 }
  let st := { st with pending := st.pending - 1,
                      submitted := st.submitted ++ [(idx, data, cnt)],
                      queue := st.queue.push idx (data, cnt) }
  let st := if st.needPush then beRead { st with needPush := false } else st
  { st with blockCount := 0 }

/-- `BlockEncoder.prototype._writeChunk`: write the value into the tap; on
overflow flush the valid data when `pos > 0`, double the block size when the
failed write's length exceeds it, allocate a fresh tap buffer and rewrite;
then count the record. -/
def beWriteChunk {α : Type} (enc : α → List Nat) (st : BEState) (val : α) :
    BEState :=
  let pos := st.content.length
  let c1 := st.content ++ enc val
  if c1.length ≤ st.cap then
    { st with content := c1, blockCount := st.blockCount + 1 }
  else
    let st := if 0 < pos then beFlushChunk { st with content := c1 } pos
              else { st with content := c1 }
    let len := c1.length - pos
    let bs := if st.blockSize < len then 2 * len else st.blockSize
    { st with blockSize := bs, cap := bs, content := enc val,
              blockCount := st.blockCount + 1 }

/-- `BlockEncoder.prototype._write` (first write): the "null" codec is in the
default registry, so no error; push the encoded header (the run does not use
`omitHeader`), switch to `_writeChunk` and process the value. -/
def beWrite {α : Type} (enc : α → List Nat) (schemaBytes : List Nat)
    (st : BEState) (val : α) : BEState :=
  if st.headerDone then beWriteChunk enc st val
  else
    beWriteChunk enc
      { st with
        pushes :=
          st.pushes ++ [headerBytes schemaBytes nullCodecName st.syncMarker]
        headerDone := true } val

/-- The `finish` handler: flush the final chunk when records are pending in
the tap. -/
def beFinish (st : BEState) : BEState :=
  let st := { st with finished := true }
  if 0 < st.blockCount then beFlushChunk st st.content.length else st

/-- The downstream consumer: keep invoking `_read` until the encoder stalls
or ends (fuel-bounded). -/
def beDrainE : Nat → BEState → BEState
  | 0, st => st
  | f + 1, st =>
    let st1 := beRead st
    if st1.needPush = true ∨ st1.ended = true then st1 else beDrainE f st1

/-- A fresh `BlockEncoder` with the given block size and sync marker, exactly
the fields the constructor initializes — in particular `index` is `none`
because `this._index` is never initialized. -/
def beInit (blockSize : Nat) (sync : List Nat) : BEState :=
  ⟨blockSize, blockSize, [], 0, none, 0, ⟨[], 0⟩, [], [], sync,
   false, false, false, false, 0⟩

/-- A concrete run: block size 1, two records of encoded lengths 3 and 4
(each too large to share a block, so two blocks are submitted to the codec),
then finish and drain the reads. -/
def beRunEx : BEState :=
  beDrainE 8 (beFinish
    (beWrite (fun (n : Nat) => List.replicate n n) [34, 108, 111, 110, 103, 34]
      (beWrite (fun (n : Nat) => List.replicate n n)
        [34, 108, 111, 110, 103, 34]
        (beInit 1 (List.replicate 16 0)) 3) 4))

/-! ## C3 -/

/-- C3: `this._index` is never initialized, so `var index = this._index++`
captures `NaN` (modelled `none`) for the first block and `NaN` again for
every later one (`NaN + 1 = NaN`): the submitted indices are `[none, none]`,
not the gapless sequence `0, 1`.  Consequently no submitted block can ever
match the `OrderedQueue`'s expected index, contradicting the claim that
every submitted block is eventually popped and emitted. -/
theorem blockEncoder_submitted_indices_not_monotonic :
    beRunEx.submitted.map (fun s => s.1) = [none, none]
    ∧ beRunEx.submitted.map (fun s => s.1) ≠ [some 0, some 1] := by
  constructor
  · decide
  · decide

/-! ## C1 -/

/-- C1: evaluation at the failing input.  The run `beRunEx` submits two
blocks (holding records 3 and 4) to compression, yet the only byte segment
ever pushed is the header, and end-of-stream follows: with `this._index`
uninitialized both blocks carry index `NaN`, the `OrderedQueue` never
releases them, and the round trip through `BlockDecoder` returns no records
instead of the two that were written. -/
theorem blockEncoder_uninitialized_index_loses_blocks :
    beRunEx.submitted.length = 2
    ∧ beRunEx.pushes
        = [headerBytes [34, 108, 111, 110, 103, 34] nullCodecName
            (List.replicate 16 0)]
    ∧ beRunEx.ended = true := by
  refine ⟨by decide, by decide, by decide⟩

/-! ## C6 -/

/-- C6: for every popped `BlockData`, `_read` pushes exactly the four byte
segments `varint-zigzag(count)`, `varint-zigzag(buf.length)`, `buf`,
`syncMarker`, in order, and pushes nothing else (no end-of-stream); when
nothing can be popped, end-of-stream is pushed exactly when the stream has
finished and no compressions are pending — which, when the head of the queue
(if any) carries the next expected index, is exactly when the stream has
finished, no compressions are pending and the queue is empty. -/
theorem blockEncoder_read_four_segments (st : BEState)
    (hgap : ∀ it ∈ st.queue.items.head?, it.1 = some st.queue.next)
    (hend : st.ended = false) :
    (∀ d q', st.queue.pop = some (d, q') →
        (beRead st).pushes = st.pushes
          ++ [longEncode d.2, longEncode d.1.length, d.1, st.syncMarker]
        ∧ (beRead st).ended = false)
    ∧ ((beRead st).ended = true ↔
        st.finished = true ∧ st.pending = 0 ∧ st.queue.items = []) := by
  constructor
  · intro d q' hpop
    unfold beRead
    rw [hpop]
    obtain ⟨buf, cnt⟩ := d
    by_cases hf : st.finished = false
    · simp [hf, hend]
    · simp [hf, hend]
  · unfold beRead
    cases hpop : st.queue.pop with
    | none =>
      constructor
      · intro hE
        by_cases hfp : st.finished = true ∧ st.pending = 0
        · refine ⟨hfp.1, hfp.2, ?_⟩
          cases hq : st.queue.items with
          | nil => rfl
          | cons it rest =>
            have hidx := hgap it (by rw [hq]; rfl)
            unfold OrderedQueue.pop at hpop
            rw [hq] at hpop
            obtain ⟨i, b⟩ := it
            simp only at hidx
            rw [hidx] at hpop
            simp at hpop
        · rw [if_neg hfp] at hE
          simp at hE
          exact absurd hE.symm (by rw [hend]; simp)
      · intro ⟨hf, hp, _⟩
        rw [if_pos ⟨hf, hp⟩]
    | some dq =>
      obtain ⟨⟨buf, cnt⟩, q⟩ := dq
      constructor
      · intro hE
        exfalso
        by_cases hf : st.finished = false
        · simp [hf, hend] at hE
        · simp [hf, hend] at hE
      · intro ⟨hf, hp, hq⟩
        unfold OrderedQueue.pop at hpop
        rw [hq] at hpop
        simp at hpop

/-- C6, witness for `blockEncoder_read_four_segments`: a queue holding one
in-order block of 2 records and 2 bytes (pop succeeds and the four segments
appear), and an empty finished queue with nothing pending (end-of-stream). -/
theorem blockEncoder_read_four_segments_witness :
    (beRead ⟨10, 10, [], 0, some 6, 3, ⟨[(some 5, ([9, 9], 2))], 5⟩, [], [],
        List.replicate 16 7, true, false, false, false, 0⟩).pushes
      = [[4], [4], [9, 9], List.replicate 16 7]
    ∧ (beRead ⟨10, 10, [], 0, some 6, 0, ⟨[], 5⟩, [], [],
        List.replicate 16 7, true, true, false, false, 0⟩).ended = true := by
  constructor
  · have h := (blockEncoder_read_four_segments
      ⟨10, 10, [], 0, some 6, 3, ⟨[(some 5, ([9, 9], 2))], 5⟩, [], [],
        List.replicate 16 7, true, false, false, false, 0⟩
      (by intro it hit; simp at hit; rw [← hit]) rfl).1
      (([9, 9], 2)) ⟨[], 6⟩ (by decide)
    rw [h.1]
    decide
  · have h := (blockEncoder_read_four_segments
      ⟨10, 10, [], 0, some 6, 0, ⟨[], 5⟩, [], [],
        List.replicate 16 7, true, true, false, false, 0⟩
      (by intro it hit; simp at hit) rfl).2
    rw [h]
    exact ⟨rfl, rfl, rfl⟩

/-! ## BlockDecoder, block phase: `_writeChunk` and the chunk counter -/

/-- `tryReadBlock` of the source: save the position, attempt to read a block
record, restore the position when the tap is invalid (returning the input
unchanged amounts to the restore). -/
def tryReadBlock (b : List Nat) : Option (WireBlock × List Nat) :=
  blockRead b

/-- Result of `BlockDecoder.prototype._writeChunk` on one chunk. -/
structure WriteChunkOut where
  /-- blocks handed to `_decompress`, in dispatch order. -/
  dispatched : List WireBlock
  /-- the "invalid sync marker" error, if one was emitted. -/
  error : Option ContainerError
  /-- unconsumed bytes left in the tap. -/
  rest : List Nat
  /-- the completion counter `nBlocks` when the function returns. -/
  nBlocks : Nat
  /-- whether the write path's own `chunkCb()` call after the loop ran
  (on the invalid-sync error the function returns before it). -/
  selfCb : Bool
  deriving Repr, DecidableEq

/-- The `while` loop of `_writeChunk` over `tryReadBlock`: each fully
readable block is checked against the sync marker (a mismatch emits
"invalid sync marker" and returns at once, skipping the trailing
`chunkCb()`), then `nBlocks` is incremented and the block dispatched to
decompression.  After the loop the write path invokes `chunkCb()` itself.
`fuel` bounds the iterations; each block consumes at least one byte, so
`b.length + 1` always suffices. -/
def writeChunkLoop (sync : List Nat) :
    Nat → List Nat → Nat → List WireBlock → WriteChunkOut
  | 0, b, n, acc => ⟨acc, none, b, n, true⟩
  | f + 1, b, n, acc =>
    match tryReadBlock b with
    | none => ⟨acc, none, b, n, true⟩
    | some (blk, rest) =>
      if blk.sync ≠ sync then ⟨acc, some .invalidSync, rest, n, false⟩
      else writeChunkLoop sync f rest (n + 1) (acc ++ [blk])

/-- `BlockDecoder.prototype._writeChunk`: concatenate the chunk onto the
unconsumed bytes, then run the dispatch loop with the counter starting
at 1. -/
def writeChunk (sync tapBuf : List Nat) (pos : Nat) (chunk : List Nat) :
    WriteChunkOut :=
  writeChunkLoop sync ((tapBuf.drop pos ++ chunk).length + 1)
    (tapBuf.drop pos ++ chunk) 1 []

/-- `chunkCb` of `_writeChunk` decrements `nBlocks` and invokes the write
callback when it reaches zero.  `cbFire c m` counts the write-callback
invocations produced by `m` `chunkCb` calls starting from counter `c`. -/
def cbFire : Nat → Nat → Nat
  | _, 0 => 0
  | c, m + 1 => (if c - 1 = 0 then 1 else 0) + cbFire (c - 1) m

theorem cbFire_eq : ∀ (m c : Nat), 1 ≤ c → m ≤ c →
    cbFire c m = if m = c then 1 else 0 := by
  intro m
  induction m with
  | zero =>
    intro c hc _
    simp only [cbFire]
    rw [if_neg (by omega)]
  | succ m ih =>
    intro c hc hm
    unfold cbFire
    by_cases h1 : c = 1
    · subst h1
      have hm0 : m = 0 := by omega
      subst hm0
      simp [cbFire]
    · have hc2 : 2 ≤ c := by omega
      rw [if_neg (by omega)]
      rw [ih (c - 1) (by omega) (by omega)]
      split_ifs <;> omega

theorem writeChunkLoop_counter (sync : List Nat) :
    ∀ (fuel : Nat) (b : List Nat) (n : Nat) (acc : List WireBlock),
      (writeChunkLoop sync fuel b n acc).error = none →
      (writeChunkLoop sync fuel b n acc).nBlocks + acc.length
          = n + (writeChunkLoop sync fuel b n acc).dispatched.length
        ∧ (writeChunkLoop sync fuel b n acc).selfCb = true := by
  intro fuel
  induction fuel with
  | zero =>
    intro b n acc _
    exact ⟨by dsimp only [writeChunkLoop], rfl⟩
  | succ f ih =>
    intro b n acc herr
    unfold writeChunkLoop at herr ⊢
    cases htr : tryReadBlock b with
    | none =>
      exact ⟨by dsimp only, rfl⟩
    | some br =>
      obtain ⟨blk, rest⟩ := br
      rw [htr] at herr
      dsimp only at herr
      dsimp only
      by_cases hs : blk.sync ≠ sync
      · rw [if_pos hs] at herr
        simp at herr
      · rw [if_neg hs] at herr ⊢
        have h2 := ih rest (n + 1) (acc ++ [blk]) herr
        refine ⟨?_, h2.2⟩
        have h1 := h2.1
        simp only [List.length_append, List.length_cons,
          List.length_nil] at h1
        omega

/-! ## C5 -/

/-- C5, counterexample.  A chunk whose (single) block carries a wrong sync
marker: `_writeChunk` emits "invalid sync marker" and returns before its own
`chunkCb()` call, and no block was dispatched, so the counter (still 1) is
never decremented — the chunk's write callback is invoked zero times, not
exactly once, falsifying the claim for this chunk. -/
theorem blockDecoder_sync_error_drops_write_cb :
    (writeChunk (List.replicate 16 0) [] 0
        ([2, 2, 7] ++ List.replicate 16 1)).error
      = some ContainerError.invalidSync
    ∧ (writeChunk (List.replicate 16 0) [] 0
        ([2, 2, 7] ++ List.replicate 16 1)).selfCb = false
    ∧ (writeChunk (List.replicate 16 0) [] 0
        ([2, 2, 7] ++ List.replicate 16 1)).dispatched = []
    ∧ cbFire
        (writeChunk (List.replicate 16 0) [] 0
          ([2, 2, 7] ++ List.replicate 16 1)).nBlocks
        ((if (writeChunk (List.replicate 16 0) [] 0
            ([2, 2, 7] ++ List.replicate 16 1)).selfCb then 1 else 0)
          + (writeChunk (List.replicate 16 0) [] 0
              ([2, 2, 7] ++ List.replicate 16 1)).dispatched.length)
      = 0 := by
  exact ⟨by decide, by decide, by decide, by decide⟩

/-- C5 (amended): for every chunk written in block phase that does not
trigger the invalid-sync error, the completion counter ends the dispatch
loop at `1 + k` where `k` is the number of fully readable blocks dispatched
from the buffered bytes, and the write path's own `chunkCb()` runs after the
loop; across the `1 + k` `chunkCb` invocations — the write path's one plus
one per dispatched block, the latter happening at or after that block's
decompression completes — the write callback fires exactly once, namely at
the last invocation, hence only after the dispatch loop has finished and
every dispatched decompression has completed; a chunk with zero complete
blocks (`k = 0`) still fires it exactly once, at the write path's own
invocation. -/
theorem blockDecoder_chunk_callback_once (sync tapBuf : List Nat) (pos : Nat)
    (chunk : List Nat)
    (hok : (writeChunk sync tapBuf pos chunk).error = none) :
    (writeChunk sync tapBuf pos chunk).selfCb = true
    ∧ (writeChunk sync tapBuf pos chunk).nBlocks
        = 1 + (writeChunk sync tapBuf pos chunk).dispatched.length
    ∧ (∀ m ≤ (writeChunk sync tapBuf pos chunk).nBlocks,
        cbFire (writeChunk sync tapBuf pos chunk).nBlocks m
          = if m = (writeChunk sync tapBuf pos chunk).nBlocks then 1
            else 0) := by
  have h := writeChunkLoop_counter sync
    ((tapBuf.drop pos ++ chunk).length + 1) (tapBuf.drop pos ++ chunk) 1 []
    hok
  have hn : (writeChunk sync tapBuf pos chunk).nBlocks
      = 1 + (writeChunk sync tapBuf pos chunk).dispatched.length := by
    have h1 := h.1
    simp only [List.length_nil, Nat.add_zero] at h1
    exact h1
  refine ⟨h.2, hn, ?_⟩
  intro m hm
  exact cbFire_eq m _ (by omega) hm

/-- C5, witness for `blockDecoder_chunk_callback_once`: a chunk holding one
valid block (count 1, one data byte, matching sync marker): the counter ends
at 2, the callback has not fired after the first `chunkCb` and fires exactly
once at the second; plus the zero-block instance. -/
theorem blockDecoder_chunk_callback_once_witness :
    (writeChunk (List.replicate 16 0) [] 0
        ([2, 2, 7] ++ List.replicate 16 0)).nBlocks = 2
    ∧ cbFire 2 1 = 0 ∧ cbFire 2 2 = 1
    ∧ (writeChunk (List.replicate 16 0) [] 0 []).nBlocks = 1
    ∧ cbFire 1 1 = 1 := by
  have h := blockDecoder_chunk_callback_once (List.replicate 16 0) [] 0
    ([2, 2, 7] ++ List.replicate 16 0) (by decide)
  have h0 := blockDecoder_chunk_callback_once (List.replicate 16 0) [] 0 []
    (by decide)
  have hn : (writeChunk (List.replicate 16 0) [] 0
      ([2, 2, 7] ++ List.replicate 16 0)).nBlocks = 2 := by
    rw [h.2.1]; decide
  have hn0 : (writeChunk (List.replicate 16 0) [] 0 []).nBlocks = 1 := by
    rw [h0.2.1]; decide
  refine ⟨hn, ?_, ?_, hn0, ?_⟩
  · have := h.2.2 1 (by decide)
    rw [hn] at this
    simpa using this
  · have := h.2.2 2 (by decide)
    rw [hn] at this
    simpa using this
  · have := h0.2.2 1 (by decide)
    rw [hn0] at this
    simpa using this

/-! ## BlockDecoder, block phase: ordered emission
(`BlockDecoder.prototype._createBlockCallback` / `_read`)

The decompressed payload of a block is abstracted as its list of records
(`List α`); reading one value from `_blockTap` is taking the head (the
source notes the read is guaranteed valid).  The decoder initializes
`this._index = 0` and assigns `this._index++` at dispatch time, so the
`i`-th dispatched block carries index `i`; the decompression callbacks may
fire in any order. -/

structure BDBlockSt (α : Type) where
  /-- records remaining in the current block's tap (`_blockTap`). -/
  blockTap : List α
  queue : OrderedQueue (List α)
  needPush : Bool
  finished : Bool
  /-- records pushed downstream. -/
  out : List α
  ended : Bool
  /-- `BlockData.cb` invocations (each releases one write callback). -/
  cbCalls : Nat

/-- `BlockDecoder.prototype._read`: if the block tap still has bytes, push
the next value from it; otherwise pop the next in-order `BlockData` — if
there is none, push end-of-stream when finished, else record the stalled
read; on a pop, invoke the block's callback, install its buffer as the block
tap and push the first value.  (The source pushes `readValue(tap)`
unconditionally, "the read is guaranteed valid"; a zero-record block never
arises in well-formed streams and is modelled as pushing nothing.) -/
def bdRead {α : Type} (st : BDBlockSt α) : BDBlockSt α :=
  let st := { st with needPush := false }
  match st.blockTap with
  | h :: t => { st with blockTap := t, out := st.out ++ [h] }
  | [] =>
    match st.queue.pop with
    | none =>
      if st.finished = true then { st with ended := true }
      else { st with needPush := true }
    | some (blk, q) =>
      match blk with
      | h :: t =>
        { st with queue := q, cbCalls := st.cbCalls + 1, blockTap := t,
                  out := st.out ++ [h] }
      | [] => { st with queue := q, cbCalls := st.cbCalls + 1 }

/-- The downstream consumer keeps invoking `_read` until the decoder stalls
(`needPush`) or ends (fuel-bounded). -/
def bdDrain {α : Type} : Nat → BDBlockSt α → BDBlockSt α
  | 0, st => st
  | f + 1, st =>
    let st1 := bdRead st
    if st1.needPush = true ∨ st1.ended = true then st1 else bdDrain f st1

/-- Fuel sufficient to drain the queue completely: one step per queued
record plus one per block plus one for the final stalled read. -/
def bdFuel {α : Type} (q : OrderedQueue (List α)) : Nat :=
  (q.items.map (fun it => it.2.length + 1)).sum + 1

/-- The success path of `BlockDecoder.prototype._createBlockCallback` for the
block of submission index `i` with decompressed records `blk`: push the
indexed `BlockData` onto the queue and re-enter `_read` when a read was
stalled; the consumer then drains until the next stall. -/
def bdComplete {α : Type} (st : BDBlockSt α) (i : Nat) (blk : List α) :
    BDBlockSt α :=
  let st1 := { st with queue := st.queue.push (some i) blk }
  if st1.needPush = true then bdDrain (bdFuel st1.queue) st1 else st1

/-- A block-phase run: blocks `B` were dispatched with indices `0, 1, ...`
(`this._index = 0` initialized, incremented per dispatch), the consumer is
already waiting (`needPush`), and the decompression callbacks complete in
the order listed in `order` (each entry is the submission index of the block
whose decompression finishes). -/
def bdRun {α : Type} (B : List (List α)) (order : List Nat) : BDBlockSt α :=
  order.foldl (fun st i => bdComplete st i (B.getD i []))
    ⟨[], ⟨[], 0⟩, true, false, [], false, 0⟩

/-- Sorted insertion of an index (the positions `insertItem` produces on a
sorted list of present indices). -/
def sortedInsert (j : Nat) : List Nat → List Nat
  | [] => [j]
  | x :: xs => if j < x then j :: x :: xs else x :: sortedInsert j xs

/-- The number of consecutive pops available from a sorted index list
starting at the expected index `n`. -/
def popRun : List Nat → Nat → Nat
  | [], _ => 0
  | x :: xs, n => if x = n then popRun xs (n + 1) + 1 else 0

theorem insertItem_map {α : Type} (f : Nat → List α) (j : Nat) :
    ∀ S : List Nat,
      insertItem (some j, f j) (S.map (fun i => (some i, f i)))
        = (sortedInsert j S).map (fun i => (some i, f i)) := by
  intro S
  induction S with
  | nil => rfl
  | cons x xs ih =>
    simp only [List.map_cons, insertItem, sortedInsert, idxLtB]
    by_cases h : j < x
    · simp [h]
    · simp [h, ih]

theorem sortedInsert_mem (j : Nat) :
    ∀ (S : List Nat) (y : Nat), y ∈ sortedInsert j S ↔ y = j ∨ y ∈ S := by
  intro S
  induction S with
  | nil => intro y; simp [sortedInsert]
  | cons x xs ih =>
    intro y
    unfold sortedInsert
    by_cases h : j < x
    · simp [h]
    · rw [if_neg h]
      simp only [List.mem_cons, ih y]
      tauto

theorem sortedInsert_pairwise (j : Nat) :
    ∀ S : List Nat, List.Pairwise (· < ·) S → j ∉ S →
      List.Pairwise (· < ·) (sortedInsert j S) := by
  intro S
  induction S with
  | nil => intro _ _; simp [sortedInsert]
  | cons x xs ih =>
    intro hp hj
    have hx : x ≠ j := fun h => hj (by rw [h]; exact List.mem_cons_self _ _)
    rw [List.pairwise_cons] at hp
    unfold sortedInsert
    by_cases h : j < x
    · rw [if_pos h, List.pairwise_cons]
      refine ⟨?_, List.pairwise_cons.mpr hp⟩
      intro y hy
      rcases List.mem_cons.mp hy with rfl | hy'
      · exact h
      · exact lt_trans h (hp.1 y hy')
    · rw [if_neg h, List.pairwise_cons]
      have hxj : x < j := by omega
      refine ⟨?_, ih hp.2 (fun hc => hj (List.mem_cons_of_mem _ hc))⟩
      intro y hy
      rcases (sortedInsert_mem j xs y).mp hy with rfl | hy'
      · exact hxj
      · exact hp.1 y hy'

theorem sortedInsert_perm (j : Nat) :
    ∀ S : List Nat, (sortedInsert j S).Perm (j :: S) := by
  intro S
  induction S with
  | nil => simp [sortedInsert]
  | cons x xs ih =>
    unfold sortedInsert
    by_cases h : j < x
    · simp [h]
    · rw [if_neg h]
      exact ((ih.cons x).trans (List.Perm.swap j x xs))

theorem popRun_spec :
    ∀ (S : List Nat) (n : Nat), List.Pairwise (· < ·) S →
      (∀ x ∈ S, n ≤ x) →
      S.take (popRun S n) = List.range' n (popRun S n)
        ∧ (∀ x ∈ S.drop (popRun S n), n + popRun S n < x) := by
  intro S
  induction S with
  | nil => intro n _ _; simp [popRun]
  | cons x xs ih =>
    intro n hp hlb
    rw [List.pairwise_cons] at hp
    unfold popRun
    by_cases h : x = n
    · subst h
      rw [if_pos rfl]
      have hlb' : ∀ y ∈ xs, x + 1 ≤ y := fun y hy => hp.1 y hy
      have := ih (x + 1) hp.2 hlb'
      constructor
      · rw [List.take_succ_cons, this.1, List.range'_succ]
      · intro y hy
        rw [List.drop_succ_cons] at hy
        have := this.2 y hy
        omega
    · rw [if_neg h]
      refine ⟨by simp, ?_⟩
      intro y hy
      simp only [List.drop_zero] at hy
      rcases List.mem_cons.mp hy with rfl | hy'
      · have := hlb y (List.mem_cons_self _ _)
        omega
      · have hx := hlb x (List.mem_cons_self _ _)
        have := hp.1 y hy'
        omega

theorem bdDrain_stall {α : Type} (fuel : Nat) (st : BDBlockSt α)
    (hf : 1 ≤ fuel)
    (h : (bdRead st).needPush = true ∨ (bdRead st).ended = true) :
    bdDrain fuel st = bdRead st := by
  cases fuel with
  | zero => omega
  | succ f =>
    simp only [bdDrain]
    rw [if_pos h]

theorem bdDrain_step {α : Type} (fuel : Nat) (st : BDBlockSt α)
    (h : ¬ ((bdRead st).needPush = true ∨ (bdRead st).ended = true)) :
    bdDrain (fuel + 1) st = bdDrain fuel (bdRead st) := by
  simp only [bdDrain]
  rw [if_neg h]

theorem bdDrain_tap {α : Type} :
    ∀ (t : List α) (g : Nat) (q : OrderedQueue (List α)) (out : List α)
      (cb : Nat),
      bdDrain (t.length + g) (⟨t, q, false, false, out, false, cb⟩ : BDBlockSt α)
        = bdDrain g ⟨[], q, false, false, out ++ t, false, cb⟩ := by
  intro t
  induction t with
  | nil =>
    intro g q out cb
    simp only [List.length_nil, Nat.zero_add, List.append_nil]
  | cons h t ih =>
    intro g q out cb
    have hread : bdRead (⟨h :: t, q, false, false, out, false, cb⟩ :
        BDBlockSt α) = ⟨t, q, false, false, out ++ [h], false, cb⟩ := rfl
    have e1 : (h :: t).length + g = (t.length + g) + 1 := by
      simp only [List.length_cons]; omega
    rw [e1, bdDrain_step _ _ (by rw [hread]; simp), hread, ih g q (out ++ [h]) cb]
    simp only [List.append_assoc, List.singleton_append]

theorem bdDrain_queue {α : Type} (f : Nat → List α) :
    ∀ (S : List Nat) (n : Nat) (out : List α) (cb : Nat) (np : Bool)
      (fuel : Nat),
      List.Pairwise (· < ·) S → (∀ x ∈ S, n ≤ x) → (∀ x ∈ S, f x ≠ []) →
      (S.map (fun i => (f i).length + 1)).sum + 1 ≤ fuel →
      bdDrain fuel
        (⟨[], ⟨S.map (fun i => (some i, f i)), n⟩, np, false, out, false, cb⟩ :
          BDBlockSt α)
        = ⟨[], ⟨(S.drop (popRun S n)).map (fun i => (some i, f i)),
                n + popRun S n⟩,
           true, false,
           out ++ ((List.range' n (popRun S n)).map f).flatten, false,
           cb + popRun S n⟩ := by
  intro S
  induction S with
  | nil =>
    intro n out cb np fuel _ _ _ hf
    have hread : bdRead
        (⟨[], ⟨[], n⟩, np, false, out, false, cb⟩ : BDBlockSt α)
        = ⟨[], ⟨[], n⟩, true, false, out, false, cb⟩ := rfl
    rw [List.map_nil, bdDrain_stall fuel _ (by omega) (by rw [hread]; simp),
      hread]
    simp [popRun]
  | cons x xs ih =>
    intro n out cb np fuel hp hlb hne hf
    rw [List.pairwise_cons] at hp
    by_cases hx : x = n
    · subst hx
      obtain ⟨h, t, hft⟩ : ∃ h t, f x = h :: t := by
        cases hfx : f x with
        | nil => exact absurd hfx (hne x (List.mem_cons_self _ _))
        | cons a b => exact ⟨a, b, rfl⟩
      have hread : bdRead
          (⟨[], ⟨(x :: xs).map (fun i => (some i, f i)), x⟩, np, false, out,
            false, cb⟩ : BDBlockSt α)
          = ⟨t, ⟨xs.map (fun i => (some i, f i)), x + 1⟩, false, false,
             out ++ [h], false, cb + 1⟩ := by
        simp only [bdRead, OrderedQueue.pop, List.map_cons, if_true, hft]
      have hsum : (f x).length + 1 + ((xs.map (fun i => (f i).length + 1)).sum)
          = ((x :: xs).map (fun i => (f i).length + 1)).sum := by
        simp
      have hlen : (f x).length = t.length + 1 := by rw [hft]; simp
      rw [← hsum] at hf
      obtain ⟨g, rfl⟩ : ∃ g, fuel = (t.length + g) + 1 :=
        ⟨fuel - 1 - t.length, by omega⟩
      rw [bdDrain_step _ _ (by rw [hread]; simp), hread, bdDrain_tap]
      have hg' : (xs.map (fun i => (f i).length + 1)).sum + 1 ≤ g := by
        omega
      rw [ih (x + 1) (out ++ [h] ++ t) (cb + 1) false g hp.2
        (fun y hy => by have := hp.1 y hy; omega)
        (fun y hy => hne y (List.mem_cons_of_mem _ hy)) hg']
      have hpr : popRun (x :: xs) x = popRun xs (x + 1) + 1 := by
        simp [popRun]
      rw [hpr]
      have e2 : (x :: xs).drop (popRun xs (x + 1) + 1)
          = xs.drop (popRun xs (x + 1)) := rfl
      have e3 : x + (popRun xs (x + 1) + 1) = (x + 1) + popRun xs (x + 1) := by
        omega
      have e4 : cb + (popRun xs (x + 1) + 1) = (cb + 1) + popRun xs (x + 1) := by
        omega
      have e5 : out ++ ((List.range' x (popRun xs (x + 1) + 1)).map f).flatten
          = ((out ++ [h]) ++ t)
              ++ ((List.range' (x + 1) (popRun xs (x + 1))).map f).flatten := by
        rw [List.range'_succ, List.map_cons, List.flatten_cons, hft]
        simp [List.append_assoc]
      rw [e2, e3, e4, e5]
    · have hread : bdRead
          (⟨[], ⟨(x :: xs).map (fun i => (some i, f i)), n⟩, np, false, out,
            false, cb⟩ : BDBlockSt α)
          = ⟨[], ⟨(x :: xs).map (fun i => (some i, f i)), n⟩, true, false,
             out, false, cb⟩ := by
        simp only [bdRead, OrderedQueue.pop, List.map_cons]
        rw [if_neg (by simpa using hx)]
        rfl
      rw [bdDrain_stall fuel _ (by omega) (by rw [hread]; simp), hread]
      have hpr : popRun (x :: xs) n = 0 := by
        unfold popRun; rw [if_neg hx]
      rw [hpr]
      simp

theorem bdRun_fold {α : Type} (f : Nat → List α) (N : Nat)
    (hfne : ∀ i, i < N → f i ≠ []) :
    ∀ (rest S : List Nat) (n : Nat) (out : List α) (cb : Nat),
      List.Pairwise (· < ·) S →
      (∀ x ∈ S, n < x ∧ x < N) →
      (List.range n ++ S ++ rest).Perm (List.range N) →
      (rest.foldl (fun st i => bdComplete st i (f i))
        (⟨[], ⟨S.map (fun i => (some i, f i)), n⟩, true, false, out, false,
          cb⟩ : BDBlockSt α)).out
        = out ++ ((List.range' n (N - n)).map f).flatten := by
  intro rest
  induction rest with
  | nil =>
    intro S n out cb hp hSb hperm
    rw [List.append_nil] at hperm
    have hlen := hperm.length_eq
    simp only [List.length_append, List.length_range] at hlen
    have hnN : N ≤ n := by
      by_contra hlt
      push_neg at hlt
      have hmem : n ∈ List.range n ++ S :=
        hperm.mem_iff.mpr (List.mem_range.mpr hlt)
      rcases List.mem_append.mp hmem with hc | hc
      · exact absurd (List.mem_range.mp hc) (lt_irrefl n)
      · exact absurd (hSb n hc).1 (lt_irrefl n)
    have hS : S = [] := by
      cases hc : S with
      | nil => rfl
      | cons a l =>
        rw [hc] at hlen
        simp only [List.length_cons] at hlen
        omega
    have hn : n = N := by
      rw [hS] at hlen
      simp at hlen
      omega
    subst hS
    subst hn
    simp

  | cons j rest' ih =>
    intro S n out cb hp hSb hperm
    have hnodup : (List.range n ++ S ++ (j :: rest')).Nodup :=
      hperm.nodup_iff.mpr (List.nodup_range N)
    have hjN : j < N := by
      have : j ∈ List.range N := hperm.mem_iff.mp (by simp)
      exact List.mem_range.mp this
    rw [List.nodup_append, List.nodup_append] at hnodup
    have hjn : n ≤ j := by
      by_contra hlt
      push_neg at hlt
      exact hnodup.2.2 (List.mem_append.mpr (Or.inl (List.mem_range.mpr hlt)))
        (List.mem_cons_self _ _)
    have hjS : j ∉ S := by
      intro hc
      exact hnodup.2.2 (List.mem_append.mpr (Or.inr hc))
        (List.mem_cons_self _ _)
    -- one completion step: push the indexed block, then drain
    rw [List.foldl_cons]
    have hq : OrderedQueue.push ⟨S.map (fun i => (some i, f i)), n⟩ (some j)
        (f j) = ⟨(sortedInsert j S).map (fun i => (some i, f i)), n⟩ := by
      unfold OrderedQueue.push
      rw [insertItem_map]
    have hp' : List.Pairwise (· < ·) (sortedInsert j S) :=
      sortedInsert_pairwise j S hp hjS
    have hlb' : ∀ x ∈ sortedInsert j S, n ≤ x := by
      intro x hx
      rcases (sortedInsert_mem j S x).mp hx with rfl | hx'
      · exact hjn
      · exact Nat.le_of_lt (hSb x hx').1
    have hub' : ∀ x ∈ sortedInsert j S, x < N := by
      intro x hx
      rcases (sortedInsert_mem j S x).mp hx with rfl | hx'
      · exact hjN
      · exact (hSb x hx').2
    have hne' : ∀ x ∈ sortedInsert j S, f x ≠ [] :=
      fun x hx => hfne x (hub' x hx)
    have hfuel : bdFuel (⟨(sortedInsert j S).map (fun i => (some i, f i)), n⟩ :
        OrderedQueue (List α))
        = ((sortedInsert j S).map (fun i => (f i).length + 1)).sum + 1 := by
      unfold bdFuel
      rw [List.map_map]
      rfl
    have hstep : bdComplete
        (⟨[], ⟨S.map (fun i => (some i, f i)), n⟩, true, false, out, false,
          cb⟩ : BDBlockSt α) j (f j)
        = ⟨[], ⟨((sortedInsert j S).drop (popRun (sortedInsert j S) n)).map
                  (fun i => (some i, f i)),
                n + popRun (sortedInsert j S) n⟩,
           true, false,
           out ++ ((List.range' n (popRun (sortedInsert j S) n)).map
             f).flatten, false,
           cb + popRun (sortedInsert j S) n⟩ := by
      unfold bdComplete
      dsimp only
      rw [hq, if_pos rfl, hfuel]
      exact bdDrain_queue f (sortedInsert j S) n out cb true _ hp' hlb' hne'
        (le_refl _)
    rw [hstep]
    set r := popRun (sortedInsert j S) n with hr
    have hrun := popRun_spec (sortedInsert j S) n hp' hlb'
    -- the popped prefix is exactly the indices n, n+1, ..., n+r-1
    have htd := List.take_append_drop r (sortedInsert j S)
    have hnr_le : n + r ≤ N := by
      by_cases hr0 : r = 0
      · have hlen := hperm.length_eq
        simp only [List.length_append, List.length_range,
          List.length_cons] at hlen
        omega
      · have hlast : n + r - 1 ∈ (sortedInsert j S).take r := by
          rw [hrun.1]
          have : n + r - 1 ∈ List.range' n r := by
            rw [List.mem_range']
            exact ⟨r - 1, by omega, by omega⟩
          exact this
        have := hub' _ (List.mem_of_mem_take hlast)
        omega
    have hih := ih ((sortedInsert j S).drop r) (n + r)
      (out ++ ((List.range' n r).map f).flatten) (cb + r)
      (hp'.sublist (List.drop_sublist _ _))
      (by
        intro x hx
        exact ⟨(hrun.2 x hx), hub' x (List.mem_of_mem_drop hx)⟩)
      (by
        -- range (n+r) ++ drop ++ rest' ~ range N
        have e1 : List.range (n + r)
            = List.range n ++ List.range' n r := by
          have h01 := List.range'_append_1 0 n r
          rw [Nat.zero_add, Nat.add_comm r n] at h01
          rw [List.range_eq_range', List.range_eq_range' n]
          exact h01.symm
        rw [e1]
        have e2 : (List.range n ++ List.range' n r
              ++ (sortedInsert j S).drop r) ++ rest'
            = List.range n ++ ((List.range' n r ++ (sortedInsert j S).drop r)
              ++ rest') := by
          simp [List.append_assoc]
        rw [e2]
        have e3 : List.range' n r ++ (sortedInsert j S).drop r
            = sortedInsert j S := by
          rw [← hrun.1]
          exact htd
        rw [e3]
        have e4 : (sortedInsert j S ++ rest').Perm (S ++ (j :: rest')) :=
          ((sortedInsert_perm j S).append_right rest').trans
            List.perm_middle.symm
        have hpm : (List.range n ++ (S ++ (j :: rest'))).Perm
            (List.range N) := by
          rw [← List.append_assoc]
          exact hperm
        exact (e4.append_left _).trans hpm)
    rw [hih]
    have e5 : List.range' n (N - n)
        = List.range' n r ++ List.range' (n + r) (N - (n + r)) := by
      rw [List.range'_append_1]
      congr 1
      omega
    rw [e5]
    simp only [List.map_append, List.flatten_append, List.append_assoc]

theorem map_getD_range_eq {α : Type} :
    ∀ (B : List α) (d : α),
      (List.range B.length).map (fun i => B.getD i d) = B := by
  intro B
  induction B with
  | nil => intro d; simp
  | cons b bs ih =>
    intro d
    rw [List.length_cons, List.range_succ_eq_map, List.map_cons,
      List.map_map]
    have hc : ((fun i => (b :: bs).getD i d) ∘ Nat.succ)
        = fun i => bs.getD i d := by
      funext i
      simp
    rw [hc, ih d]
    rfl

/-! ## C2 -/

/-- C2: for every sequence of blocks dispatched to decompression by
`BlockDecoder` (indices `0, 1, ...` assigned at dispatch) and every
permutation in which the decompression callbacks complete, the record
sequence emitted downstream is the concatenation of the blocks' records in
submission order — equal, in particular, to what a run whose callbacks
complete synchronously in submission order emits; so when two blocks
complete out of order, the earlier-submitted block's records are still
emitted first. -/
theorem blockDecoder_emission_order_eq_sync {α : Type} (B : List (List α))
    (order : List Nat)
    (hperm : order.Perm (List.range B.length))
    (hne : ∀ b ∈ B, b ≠ []) :
    (bdRun B order).out = B.flatten
    ∧ (bdRun B order).out = (bdRun B (List.range B.length)).out := by
  have main : ∀ ord : List Nat, ord.Perm (List.range B.length) →
      (bdRun B ord).out = B.flatten := by
    intro ord hpm
    unfold bdRun
    have hfne : ∀ i, i < B.length → B.getD i [] ≠ [] := by
      intro i hi
      rw [List.getD_eq_getElem B [] hi]
      exact hne _ (List.getElem_mem hi)
    have h := bdRun_fold (fun i => B.getD i []) B.length hfne ord [] 0 [] 0
      (by simp) (by simp) (by simpa using hpm)
    simp only [List.map_nil, List.nil_append, Nat.sub_zero,
      ← List.range_eq_range', map_getD_range_eq B []] at h
    exact h
  exact ⟨main order hperm, by
    rw [main order hperm, main (List.range B.length) (List.Perm.refl _)]⟩

/-- C2, witness for `blockDecoder_emission_order_eq_sync`: two one-record
blocks whose decompressions complete in the order `B1, B0`; the records are
still emitted as `B0`'s then `B1`'s, exactly as in the synchronous run. -/
theorem blockDecoder_emission_order_eq_sync_witness :
    ([1, 0] : List Nat).Perm (List.range 2)
    ∧ (bdRun [[10], [20]] [1, 0]).out = [10, 20]
    ∧ (bdRun [[10], [20]] [1, 0]).out
        = (bdRun [[10], [20]] (List.range 2)).out := by
  have h := blockDecoder_emission_order_eq_sync [[10], [20]] [1, 0]
    (by decide) (by decide)
  refine ⟨by decide, ?_, ?_⟩
  · rw [h.1]
    decide
  · have h2 := h.2
    simpa using h2

end Avsc
